import Mathlib

/-!
Verification of the pycoin ledger core against its specification.

The development shallowly embeds the Python sources under `src/core/`
(`crypto.py`, `transaction.py`, `block.py`, `blockchain.py`).  External
cryptographic libraries (`hashlib`'s SHA-256 and the `ecdsa` package) are
not part of the repository; they are abstracted as a `CryptoModel`
parameter: every definition and theorem is stated for an arbitrary model,
and witnesses instantiate it with a concrete executable dummy.  Python
byte strings are `List Nat` (each entry a byte value), Python `dict`s keyed
by strings are function maps `String → Option _`, sets of strings are
`String → Bool`, and the unbounded mining / base-conversion loops take an
explicit fuel argument that provably suffices.
-/

/-- Abstraction of the external cryptographic libraries used by the core:
`double_sha256` from `crypto.py` (via `hashlib`), UTF-8 string encoding,
and the `ecdsa`-backed public-key operations used by
`Transaction.verify_input` in `transaction.py`.  `dsha_len` and `dsha_lt`
record that a SHA-256 digest is 32 bytes. -/
structure CryptoModel where
  dsha : List Nat → List Nat
  utf8 : String → List Nat
  pkFromHexOk : String → Bool
  pkToAddress : String → String
  pkVerify : String → List Nat → List Nat → Bool
  dsha_len : ∀ b, (dsha b).length = 32
  dsha_lt : ∀ b, ∀ x ∈ dsha b, x < 256

/-- `double_sha256` applied to a Python `str` (which `crypto.sha256`
UTF-8-encodes first). -/
def strDsha (C : CryptoModel) (s : String) : List Nat :=
  C.dsha (C.utf8 s)

/-- Lower-case hexadecimal digit, as produced by Python's `bytes.hex`. -/
def hexChar (n : Nat) : Char :=
  "0123456789abcdef".data.getD n '0'

/-- `crypto.bytes_to_hex` / Python `bytes.hex()`: two lower-case hex digits
per byte. -/
def bytes_to_hex (b : List Nat) : String :=
  String.mk (b.flatMap (fun x => [hexChar (x / 16), hexChar (x % 16)]))

/-- Value of one hexadecimal digit character (upper or lower case),
`none` for a non-hex character. -/
def hexVal (c : Char) : Option Nat :=
  match "0123456789abcdef".data.findIdx? (fun a => a == c) with
  | some i => some i
  | none => "0123456789ABCDEF".data.findIdx? (fun a => a == c)

/-- `crypto.hex_to_bytes` / Python `bytes.fromhex` on a list of characters:
pairs of hex digits; `none` models the `ValueError` on malformed input. -/
def hex_to_bytes : List Char → Option (List Nat)
  | [] => some []
  | [_] => none
  | c1 :: c2 :: rest =>
    match hexVal c1, hexVal c2, hex_to_bytes rest with
    | some h, some l, some r => some ((16 * h + l) :: r)
    | _, _, _ => none

/-- Helper for `split_once_colon`. -/
def splitColonGo : List Char → List Char → Option (String × String)
  | [], _ => none
  | c :: rest, acc =>
    if c = ':' then some (String.mk acc.reverse, String.mk rest)
    else splitColonGo rest (c :: acc)

/-- Python `s.split(":", 1)` restricted to the way `verify_input` uses it:
`none` when the string contains no colon (which also covers the
`not inp.signature_script` emptiness test, since an empty string has no
colon). -/
def split_once_colon (s : String) : Option (String × String) :=
  splitColonGo s.data []

/-- The all-zero 64-character hex digest `"0" * 64`, the sentinel for
"no previous transaction" and "no previous block". -/
def zeros64 : String :=
  String.mk (List.replicate 64 '0')

/-- Minimal JSON string escaping for `json.dumps` (quote and backslash;
the claims do not depend on the escaping of other characters). -/
def jsonEscapeChar (c : Char) : List Char :=
  if c = '\\' then ['\\', '\\']
  else if c = '"' then ['\\', '"']
  else [c]

/-- A JSON string literal as produced by `json.dumps`. -/
def jsonStr (s : String) : String :=
  String.mk ('"' :: s.data.flatMap jsonEscapeChar ++ ['"'])

/-- A JSON array with `json.dumps`' default `", "` separator. -/
def jsonList (items : List String) : String :=
  "[" ++ String.intercalate ", " items ++ "]"

/-- `transaction.TransactionInput` (a Python dataclass).  The
`pubkey_script` field is the attribute that `Transaction.sign_input`
stores dynamically on the input; it defaults to the empty string. -/
structure TransactionInput where
  prev_tx_id : String
  prev_output_index : Nat
  signature_script : String := ""
  sequence : Nat := 4294967295
  pubkey_script : String := ""
deriving DecidableEq

/-- Default used to model Python's `inputs[0]` access; theorems about code
paths that read `inputs[0]` carry a nonemptiness hypothesis so the default
is never relevant. -/
def defaultInput : TransactionInput :=
  { prev_tx_id := "", prev_output_index := 0 }

/-- `transaction.TransactionOutput` (a Python dataclass). -/
structure TransactionOutput where
  amount : Nat
  recipient_address : String
  pubkey_script : String := ""
deriving DecidableEq

/-- `transaction.Transaction`.  `cached_tx_id` models the lazily-computed
`_tx_id` field; the Python float timestamp is modelled as a `Nat` (no
claim depends on its formatting, and `serialize_for_signing` excludes
it). -/
structure Transaction where
  version : Nat := 1
  inputs : List TransactionInput
  outputs : List TransactionOutput
  lock_time : Nat := 0
  timestamp : Nat
  cached_tx_id : Option String := none
deriving DecidableEq

/-- Default transaction, for modelling `transactions[0]` accesses. -/
def defaultTx : Transaction :=
  { inputs := [], outputs := [], timestamp := 0 }

/-- JSON of one input inside `Transaction.serialize_for_signing`
(`sort_keys=True`, so keys appear as `prev_output_index`, `prev_tx_id`,
`sequence`; the `signature_script` is deliberately excluded). -/
def inputSigJson (inp : TransactionInput) : String :=
  "\x7b\"prev_output_index\": " ++ toString inp.prev_output_index ++
    ", \"prev_tx_id\": " ++ jsonStr inp.prev_tx_id ++
    ", \"sequence\": " ++ toString inp.sequence ++ "\x7d"

/-- JSON of one output (`asdict` of the dataclass, keys sorted as
`amount`, `pubkey_script`, `recipient_address`). -/
def outputJson (out : TransactionOutput) : String :=
  "\x7b\"amount\": " ++ toString out.amount ++
    ", \"pubkey_script\": " ++ jsonStr out.pubkey_script ++
    ", \"recipient_address\": " ++ jsonStr out.recipient_address ++ "\x7d"

/-- `Transaction.serialize_for_signing`: `json.dumps(data, sort_keys=True)`
over `version`, the unsigned inputs, the outputs and `lock_time`
(top-level keys sorted: `inputs`, `lock_time`, `outputs`, `version`). -/
def Transaction.serialize_for_signing (t : Transaction) : String :=
  "\x7b\"inputs\": " ++ jsonList (t.inputs.map inputSigJson) ++
    ", \"lock_time\": " ++ toString t.lock_time ++
    ", \"outputs\": " ++ jsonList (t.outputs.map outputJson) ++
    ", \"version\": " ++ toString t.version ++ "\x7d"

/-- `Transaction.calculate_hash`: double SHA-256 of the signing
serialization, hex-encoded with the byte order reversed. -/
def Transaction.calculate_hash (C : CryptoModel) (t : Transaction) : String :=
  bytes_to_hex (strDsha C (Transaction.serialize_for_signing t)).reverse

/-- The `tx_id` property: the cached `_tx_id` if present, otherwise
`calculate_hash`. -/
def Transaction.tx_id (C : CryptoModel) (t : Transaction) : String :=
  match t.cached_tx_id with
  | some s => s
  | none => Transaction.calculate_hash C t

/-- The UTXO dictionary key `f"{tx_id}:{output_index}"`. -/
def utxoKey (txid : String) (i : Nat) : String :=
  txid ++ ":" ++ toString i

/-- The key of the outpoint consumed by an input,
`f"{inp.prev_tx_id}:{inp.prev_output_index}"`. -/
def inputKey (inp : TransactionInput) : String :=
  inp.prev_tx_id ++ ":" ++ toString inp.prev_output_index

/-- Abstraction of a `keys.PrivateKey`: its `sign` method and the
compressed-hex form of its public key (`public_key.to_hex(compressed=True)`
in `sign_input`). -/
structure PrivKeyModel where
  sign : List Nat → List Nat
  pubHexCompressed : String

/-- `Transaction.sign_input`: `ValueError` (modelled as `Except.error`)
when the input index is out of range; otherwise signs the double SHA-256
of the signing serialization, stores `hex(sig) ++ ":" ++ hex(pubkey)` as
the input's signature script, copies the previous locking script onto the
input, and invalidates the cached transaction id. -/
def Transaction.sign_input (C : CryptoModel) (t : Transaction)
    (input_index : Nat) (private_key : PrivKeyModel)
    (prev_pubkey_script : String) : Except String Transaction :=
  if t.inputs.length ≤ input_index then
    Except.error ("Input index " ++ toString input_index ++ " out of range")
  else
    let message_hash := strDsha C (Transaction.serialize_for_signing t)
    let signature := private_key.sign message_hash
    let signature_script :=
      bytes_to_hex signature ++ ":" ++ private_key.pubHexCompressed
    let inp := t.inputs.getD input_index defaultInput
    Except.ok
      { t with
        inputs := t.inputs.set input_index
          { inp with
            signature_script := signature_script,
            pubkey_script := prev_pubkey_script },
        cached_tx_id := none }

/-- The unsigned copy of a transaction that `verify_input` rebuilds: every
input's signature script blanked (the fresh Python timestamp is modelled
as `0`; `serialize_for_signing` does not read it). -/
def blankSigs (t : Transaction) : Transaction :=
  { version := t.version,
    inputs := t.inputs.map (fun i =>
      { prev_tx_id := i.prev_tx_id,
        prev_output_index := i.prev_output_index,
        signature_script := "",
        sequence := i.sequence }),
    outputs := t.outputs,
    lock_time := t.lock_time,
    timestamp := 0,
    cached_tx_id := none }

/-- `Transaction.verify_input`: bounds check, signature-script parsing,
address comparison against the previous output, then signature
verification against the all-blanked canonical form.  Any parse failure
(no colon, malformed hex, bad public key) yields `false`. -/
def Transaction.verify_input (C : CryptoModel) (t : Transaction)
    (input_index : Nat) (prev_output : TransactionOutput) : Bool :=
  match t.inputs.get? input_index with
  | none => false
  | some inp =>
    match split_once_colon inp.signature_script with
    | none => false
    | some (sig_hex, pubkey_hex) =>
      match hex_to_bytes sig_hex.data with
      | none => false
      | some signature =>
        if !C.pkFromHexOk pubkey_hex then false
        else if prev_output.recipient_address ≠ C.pkToAddress pubkey_hex then
          false
        else
          C.pkVerify pubkey_hex
            (strDsha C (Transaction.serialize_for_signing (blankSigs t)))
            signature

/-- The `for i, inp in enumerate(self.inputs)` loop of
`Transaction.verify`, with the running index made explicit. -/
def verifyGo (C : CryptoModel) (prev_outputs : String → Option TransactionOutput)
    (t : Transaction) : Nat → List TransactionInput → Bool
  | _, [] => true
  | i, inp :: rest =>
    match prev_outputs (inputKey inp) with
    | none => false
    | some prev_output =>
      Transaction.verify_input C t i prev_output &&
        verifyGo C prev_outputs t (i + 1) rest

/-- `Transaction.verify`: every input's outpoint must be present in the
supplied previous-output map and `verify_input` must succeed on it. -/
def Transaction.verify (C : CryptoModel)
    (prev_outputs : String → Option TransactionOutput)
    (t : Transaction) : Bool :=
  verifyGo C prev_outputs t 0 t.inputs

/-- `Transaction.get_input_value`: sum of the amounts of the referenced
previous outputs, skipping outpoints missing from the map. -/
def Transaction.get_input_value
    (prev_outputs : String → Option TransactionOutput)
    (t : Transaction) : Nat :=
  t.inputs.foldl (fun total inp =>
    match prev_outputs (inputKey inp) with
    | some out => total + out.amount
    | none => total) 0

/-- `Transaction.get_output_value`: sum of the output amounts. -/
def Transaction.get_output_value (t : Transaction) : Nat :=
  t.outputs.foldl (fun total out => total + out.amount) 0

/-- `transaction.create_coinbase_transaction`: single input with the
all-zero previous id, the `0xffffffff` index sentinel and a
height-embedding script; one output paying the miner. -/
def create_coinbase_transaction (recipient_address : String) (amount : Nat)
    (block_height : Nat) (timestamp : Nat) : Transaction :=
  { version := 1,
    inputs := [{ prev_tx_id := zeros64,
                 prev_output_index := 4294967295,
                 signature_script := "coinbase_block_" ++ toString block_height,
                 sequence := 4294967295 }],
    outputs := [{ amount := amount, recipient_address := recipient_address }],
    lock_time := 0,
    timestamp := timestamp,
    cached_tx_id := none }

/-- One level-building pass of the `while` loop in
`block.calculate_merkle_root`: pair adjacent ids, duplicating the last id
of an odd-length level; each parent is the byte-reversed hex of the double
SHA-256 of the two children's hex strings concatenated as strings. -/
def merklePair (C : CryptoModel) (left right : String) : String :=
  bytes_to_hex (strDsha C (left ++ right)).reverse

/-- The `for i in range(0, len(current_level), 2)` pairing pass. -/
def merkleStep (C : CryptoModel) : List String → List String
  | [] => []
  | [a] => [merklePair C a a]
  | a :: b :: rest => merklePair C a b :: merkleStep C rest

/-- The `while len(current_level) > 1` loop, with a fuel bound on the
number of passes (each pass halves the level, so fuel equal to the initial
length provably suffices; the loop itself always terminates). -/
def merkleLoopGo (C : CryptoModel) : Nat → List String → List String
  | 0, level => level
  | fuel + 1, level =>
    if level.length ≤ 1 then level
    else merkleLoopGo C fuel (merkleStep C level)

/-- `block.calculate_merkle_root`: the all-zero digest for an empty
transaction list, otherwise the single survivor of repeated pairing over
the transaction ids. -/
def calculate_merkle_root (C : CryptoModel)
    (transactions : List Transaction) : String :=
  if transactions.isEmpty then zeros64
  else
    (merkleLoopGo C transactions.length
      (transactions.map (Transaction.tx_id C))).headD ""

/-- `block.Block`.  `cached_hash` models the lazily-computed `_hash`;
the Python float timestamp is a `Nat` (no claim depends on its
formatting). -/
structure Block where
  index : Nat
  transactions : List Transaction
  previous_hash : String
  timestamp : Nat
  nonce : Nat
  difficulty : Nat
  merkle_root : String
  cached_hash : Option String := none
deriving DecidableEq

/-- Default block, for modelling the `latest_block` access of
`_validate_block` (only reached with a nonempty chain). -/
def defaultBlock : Block :=
  { index := 0, transactions := [], previous_hash := "", timestamp := 0,
    nonce := 0, difficulty := 0, merkle_root := "" }

/-- `Block.__init__`: the merkle root is recomputed from the supplied
transactions at construction, never taken on faith. -/
def Block.make (C : CryptoModel) (index : Nat)
    (transactions : List Transaction) (previous_hash : String)
    (timestamp : Nat) (nonce : Nat) (difficulty : Nat) : Block :=
  { index := index,
    transactions := transactions,
    previous_hash := previous_hash,
    timestamp := timestamp,
    nonce := nonce,
    difficulty := difficulty,
    merkle_root := calculate_merkle_root C transactions,
    cached_hash := none }

/-- `Block.calculate_hash`: double SHA-256 of the canonical header JSON
(`sort_keys=True`: `difficulty`, `index`, `merkle_root`, `nonce`,
`previous_hash`, `timestamp`), hex-encoded without byte reversal. -/
def Block.calculate_hash (C : CryptoModel) (b : Block) : String :=
  bytes_to_hex (strDsha C
    ("\x7b\"difficulty\": " ++ toString b.difficulty ++
      ", \"index\": " ++ toString b.index ++
      ", \"merkle_root\": " ++ jsonStr b.merkle_root ++
      ", \"nonce\": " ++ toString b.nonce ++
      ", \"previous_hash\": " ++ jsonStr b.previous_hash ++
      ", \"timestamp\": " ++ toString b.timestamp ++ "\x7d"))

/-- The `hash` property: cached value if present, else `calculate_hash`. -/
def Block.hash (C : CryptoModel) (b : Block) : String :=
  match b.cached_hash with
  | some h => h
  | none => Block.calculate_hash C b

/-- Python `str.startswith`. -/
def startswith (s t : String) : Bool :=
  decide (s.data.take t.data.length = t.data)

/-- The difficulty target `"0" * difficulty`. -/
def zerosTarget (difficulty : Nat) : String :=
  String.mk (List.replicate difficulty '0')

/-- The `while True` nonce-search loop of `Block.mine`, with explicit
fuel modelling its unboundedness: each attempt clears the hash cache,
recomputes the full header hash, and either returns (counting this
attempt) or increments the nonce and continues.  The returned number is
the total attempt count. -/
def mineGo (C : CryptoModel) (difficulty : Nat) :
    Nat → Block → Option (Block × Nat)
  | 0, _ => none
  | fuel + 1, b =>
    let bb : Block := { b with cached_hash := none }
    if startswith (Block.calculate_hash C bb) (zerosTarget difficulty) then
      some (bb, 1)
    else
      match mineGo C difficulty fuel { bb with nonce := bb.nonce + 1 } with
      | none => none
      | some (b', attempts) => some (b', attempts + 1)

/-- `Block.mine` with an explicit difficulty (the callers in
`blockchain.py` always pass one). -/
def Block.mine (C : CryptoModel) (b : Block) (difficulty : Nat)
    (fuel : Nat) : Option (Block × Nat) :=
  mineGo C difficulty fuel b

/-- `Block.is_valid_proof`: the (cached) header hash starts with
`difficulty` zero characters. -/
def Block.is_valid_proof (C : CryptoModel) (b : Block)
    (difficulty : Nat) : Bool :=
  startswith (Block.hash C b) (zerosTarget difficulty)

/-- `Block.validate_transactions`: nonempty list, coinbase first, every
later transaction verifies against the supplied previous outputs, and the
stored merkle root matches a fresh recomputation. -/
def Block.validate_transactions (C : CryptoModel) (b : Block)
    (prev_outputs : String → Option TransactionOutput) : Bool :=
  if b.transactions.isEmpty then false
  else if ((b.transactions.headD defaultTx).inputs.headD
      defaultInput).prev_tx_id ≠ zeros64 then false
  else if !(b.transactions.tail.all (fun tx =>
      Transaction.verify C prev_outputs tx)) then false
  else if b.merkle_root ≠ calculate_merkle_root C b.transactions then false
  else true

/-- `blockchain.Blockchain` state: the chain, the mining parameters, the
pending FIFO queue, the UTXO map (`"tx_id:index"` → output) and the
spent-output set. -/
structure Blockchain where
  chain : List Block
  difficulty : Nat
  block_reward : Nat
  pending_transactions : List Transaction
  utxo : String → Option TransactionOutput
  spent_outputs : String → Bool

/-- `Blockchain.__init__`. -/
def Blockchain.init (difficulty : Nat) (block_reward : Nat) : Blockchain :=
  { chain := [],
    difficulty := difficulty,
    block_reward := block_reward,
    pending_transactions := [],
    utxo := fun _ => none,
    spent_outputs := fun _ => false }

/-- `Blockchain.get_latest_block`. -/
def Blockchain.get_latest_block (bc : Blockchain) : Option Block :=
  bc.chain.getLast?

/-- The `for i, output in enumerate(transaction.outputs)` loop of
`Blockchain._add_utxos` (also inlined verbatim in `load_from_file`), with
the running index made explicit. -/
def addUtxosGo (txid : String) :
    (String → Option TransactionOutput) → Nat → List TransactionOutput →
      (String → Option TransactionOutput)
  | u, _, [] => u
  | u, i, out :: rest =>
    addUtxosGo txid
      (fun k => if k = utxoKey txid i then some out else u k) (i + 1) rest

/-- `Blockchain._add_utxos`: store every output of the transaction under
`f"{transaction.tx_id}:{i}"`. -/
def Blockchain.add_utxos (C : CryptoModel)
    (u : String → Option TransactionOutput) (t : Transaction) :
    String → Option TransactionOutput :=
  addUtxosGo (Transaction.tx_id C t) u 0 t.outputs

/-- `Blockchain._validate_transaction`: every input's outpoint not yet
spent and present in the UTXO set, signatures verify against the UTXO
set, and total input value at least total output value. -/
def Blockchain.validate_transaction (C : CryptoModel) (bc : Blockchain)
    (t : Transaction) : Bool :=
  t.inputs.all (fun inp =>
      !bc.spent_outputs (inputKey inp) && (bc.utxo (inputKey inp)).isSome) &&
    Transaction.verify C bc.utxo t &&
    decide (Transaction.get_output_value t ≤
      Transaction.get_input_value bc.utxo t)

/-- `Blockchain.add_transaction`: a transaction whose first input's
previous id is the all-zero hash skips validation entirely; otherwise the
transaction is appended only if `_validate_transaction` passes.  Python's
`transaction.inputs[0]` is modelled with `headD`; theorems carry a
nonemptiness hypothesis. -/
def Blockchain.add_transaction (C : CryptoModel) (bc : Blockchain)
    (t : Transaction) : Bool × Blockchain :=
  if (t.inputs.headD defaultInput).prev_tx_id = zeros64 then
    (true, { bc with pending_transactions := bc.pending_transactions ++ [t] })
  else if !Blockchain.validate_transaction C bc t then (false, bc)
  else
    (true, { bc with pending_transactions := bc.pending_transactions ++ [t] })

/-- The candidate block that `Blockchain.mine_pending_transactions`
assembles before mining: a fresh coinbase for the next height prepended to
the pending queue, at index `len(chain)` with the current tip's hash. -/
def Blockchain.candidate_block (C : CryptoModel) (bc : Blockchain)
    (miner_address : String) (txTs blockTs : Nat) : Block :=
  Block.make C bc.chain.length
    (create_coinbase_transaction miner_address bc.block_reward
        bc.chain.length txTs :: bc.pending_transactions)
    (Block.hash C (bc.chain.getLastD defaultBlock)) blockTs 0 bc.difficulty

/-- One iteration of the chain-rebuilding loop of
`Blockchain.load_from_file`: append the block and replay only its outputs
into the UTXO map (the inlined copy of the `_add_utxos` loop). -/
def loadBlock (C : CryptoModel) (bc : Blockchain) (block : Block) :
    Blockchain :=
  { bc with
    chain := bc.chain ++ [block],
    utxo := block.transactions.foldl (Blockchain.add_utxos C) bc.utxo }

/-- `Blockchain.load_from_file`, modelled on the already-parsed JSON data
(file I/O and `from_dict` parsing abstracted away): start from a fresh
state, append every block and replay only its outputs into the UTXO map,
then install the pending list.  Inputs are never replayed and the spent
set is never touched. -/
def Blockchain.load_from_file (C : CryptoModel) (difficulty : Nat)
    (block_reward : Nat) (chainData : List Block)
    (pendingData : List Transaction) : Blockchain :=
  let bc := chainData.foldl (loadBlock C)
    (Blockchain.init difficulty block_reward)
  { bc with pending_transactions := pendingData }

/-- Reference merkle-root definition following the spec's words (§4.4),
for comparison with the loop-based `calculate_merkle_root`: empty list ↦
all-zero digest; singleton ↦ that element unchanged; otherwise recurse on
the paired-up level (odd levels duplicate their last element, parents are
`merklePair`). -/
def merkleRootSpec (C : CryptoModel) : List String → String
  | [] => zeros64
  | [x] => x
  | a :: b :: rest => merkleRootSpec C (merkleStep C (a :: b :: rest))
termination_by ids => ids.length
decreasing_by
  have aux : ∀ n (l : List String), l.length ≤ n →
      2 * (merkleStep C l).length ≤ l.length + 1 := by
    intro n
    induction n with
    | zero =>
      intro l hl
      cases l with
      | nil => simp [merkleStep]
      | cons a t => simp at hl
    | succ n ih =>
      intro l hl
      cases l with
      | nil => simp [merkleStep]
      | cons a t =>
        cases t with
        | nil => simp [merkleStep]
        | cons b rest =>
          have h := ih rest (by simp at hl; omega)
          simp only [merkleStep, List.length_cons]
          omega
  have h := aux (rest.length + 2) (a :: b :: rest) (by simp)
  simp only [List.length_cons] at h ⊢
  omega

/-- A transaction produces UTXO key `k`: `k` is `f"{tx_id}:{i}"` for one
of its output indices. -/
def txProduces (C : CryptoModel) (t : Transaction) (k : String) : Prop :=
  ∃ i, i < t.outputs.length ∧ utxoKey (Transaction.tx_id C t) i = k

/-- Little-endian base-`base` digits of `n` via repeated division, the
`while n > 0` loop of a positional-base conversion; the first argument is
fuel, and fuel `n` always suffices since `n` strictly shrinks. -/
def toDigitsB (base : Nat) : Nat → Nat → List Nat
  | 0, _ => []
  | fuel + 1, n =>
    if n = 0 then [] else n % base :: toDigitsB base fuel (n / base)

/-- Value of a little-endian digit list. -/
def fromDigitsB (base : Nat) : List Nat → Nat
  | [] => 0
  | d :: rest => d + base * fromDigitsB base rest

/-- Length of the leading run of `x`. -/
def countLeading {α : Type} [DecidableEq α] (x : α) : List α → Nat
  | [] => 0
  | a :: rest => if a = x then countLeading x rest + 1 else 0

/-- The base-58 alphabet used by the `base58` library. -/
def B58_ALPHABET : List Char :=
  "123456789ABCDEFGHJKLMNPQRSTUVWXYZabcdefghijkmnopqrstuvwxyz".data

/-- Digit value to alphabet character. -/
def b58Char (d : Nat) : Char :=
  B58_ALPHABET.getD d '?'

/-- Alphabet character to digit value, `none` for a foreign character. -/
def b58Value (c : Char) : Option Nat :=
  B58_ALPHABET.findIdx? (fun a => a == c)

/-- Big-endian base-58 digits of `n`. -/
def natToB58 (n : Nat) : List Nat :=
  (toDigitsB 58 n n).reverse

/-- Big-endian byte value (`int.from_bytes(data, "big")`). -/
def bytesToNat (data : List Nat) : Nat :=
  fromDigitsB 256 data.reverse

/-- Minimal big-endian bytes of `n` (`int.to_bytes`, shortest form). -/
def natToBytes (n : Nat) : List Nat :=
  (toDigitsB 256 n n).reverse

/-- `crypto.base58_encode`, the `base58` library's `b58encode`: one `'1'`
per leading zero byte, then the big-endian base-58 digits of the value of
the data. -/
def base58_encode (data : List Nat) : String :=
  String.mk (List.replicate (countLeading 0 data) '1' ++
    (natToB58 (bytesToNat data)).map b58Char)

/-- Digit values of a character list; `none` if any character is foreign
(the library raises on invalid characters). -/
def b58ValuesGo : List Char → Option (List Nat)
  | [] => some []
  | c :: rest =>
    match b58Value c, b58ValuesGo rest with
    | some v, some vs => some (v :: vs)
    | _, _ => none

/-- `crypto.base58_decode`, the `base58` library's `b58decode`: the value
of the digit string as minimal big-endian bytes, preceded by one zero byte
per leading `'1'`. -/
def base58_decode (s : String) : Option (List Nat) :=
  match b58ValuesGo s.data with
  | none => none
  | some vals =>
    some (List.replicate (countLeading '1' s.data) 0 ++
      natToBytes (fromDigitsB 58 vals.reverse))

/-- `crypto.base58check_encode`: append the first four bytes of the double
SHA-256 of `version ++ payload` as a checksum, then base-58 encode. -/
def base58check_encode (C : CryptoModel) (version payload : List Nat) :
    String :=
  let data := version ++ payload
  let checksum := (C.dsha data).take 4
  base58_encode (data ++ checksum)

/-- `crypto.base58check_decode`: base-58 decode, split into
`decoded[:1]`, `decoded[1:-4]` and `decoded[-4:]` (the Python slices, with
their clamping behaviour for short inputs), and fail with the checksum
`ValueError` unless the trailing bytes match the recomputed checksum. -/
def base58check_decode (C : CryptoModel) (s : String) :
    Except String (List Nat × List Nat) :=
  match base58_decode s with
  | none => Except.error "Invalid base58"
  | some decoded =>
    let version := decoded.take 1
    let payload := (decoded.drop 1).take (decoded.length - 5)
    let checksum := decoded.drop (decoded.length - 4)
    if checksum = (C.dsha (version ++ payload)).take 4 then
      Except.ok (version, payload)
    else Except.error "Invalid checksum"

/-- Concrete executable dummy cryptographic model used by the witnesses:
the digest is 32 zero bytes. -/
def CW : CryptoModel where
  dsha := fun _ => List.replicate 32 0
  utf8 := fun _ => []
  pkFromHexOk := fun _ => false
  pkToAddress := fun _ => ""
  pkVerify := fun _ _ _ => false
  dsha_len := fun _ => by simp
  dsha_lt := fun _ x hx => by rw [List.eq_of_mem_replicate hx]; decide

/-- Concrete dummy private key for witnesses. -/
def KW : PrivKeyModel :=
  { sign := fun _ => [1, 2], pubHexCompressed := "02aa" }

/-- Witness transaction with one signed input. -/
def txW1 : Transaction :=
  { inputs := [{ prev_tx_id := "aa", prev_output_index := 0,
                 signature_script := "sig1:pk1" }],
    outputs := [{ amount := 5, recipient_address := "addr" }],
    timestamp := 3 }

/-- `txW1` with a different signature script and timestamp. -/
def txW2 : Transaction :=
  { txW1 with
    inputs := [{ prev_tx_id := "aa", prev_output_index := 0,
                 signature_script := "zz" }],
    timestamp := 9 }

/-- Witness coinbase-shaped transaction with a non-reserved output index
and a second input. -/
def txW3 : Transaction :=
  { inputs := [{ prev_tx_id := zeros64, prev_output_index := 7 },
               { prev_tx_id := "bb", prev_output_index := 1 }],
    outputs := [], timestamp := 0 }

/-- Witness ordinary transaction spending an unknown outpoint. -/
def txW4 : Transaction :=
  { inputs := [{ prev_tx_id := "cc", prev_output_index := 0 }],
    outputs := [], timestamp := 0 }

/-- Fresh witness ledger. -/
def bcW0 : Blockchain :=
  Blockchain.init 2 50

/-- Witness coinbase transaction. -/
def coinbaseW : Transaction :=
  create_coinbase_transaction "m" 50 0 0

/-- Witness genesis-shaped block. -/
def blkW : Block :=
  Block.make CW 0 [coinbaseW] zeros64 0 0 1

/-- Witness ledger holding one block, at difficulty 1. -/
def bcW1 : Blockchain :=
  { chain := [blkW],
    difficulty := 1,
    block_reward := 50,
    pending_transactions := [],
    utxo := fun _ => none,
    spent_outputs := fun _ => false }

/-- `bcW1` with a pending transaction that cannot validate (its input's
outpoint is unknown), so the mined candidate block is rejected. -/
def bcW2 : Blockchain :=
  { bcW1 with pending_transactions := [txW4] }

/-- The candidate block of the rejected-commit witness. -/
def minedW2 : Block :=
  Blockchain.candidate_block CW bcW2 "m" 0 0

theorem map_inputSigJson_congr {l1 l2 : List TransactionInput}
    (h : l1.map (fun i => (i.prev_tx_id, i.prev_output_index, i.sequence)) =
      l2.map (fun i => (i.prev_tx_id, i.prev_output_index, i.sequence))) :
    l1.map inputSigJson = l2.map inputSigJson := by
  induction l1 generalizing l2 with
  | nil =>
    cases l2 with
    | nil => rfl
    | cons b t => simp at h
  | cons a t ih =>
    cases l2 with
    | nil => simp at h
    | cons b t2 =>
      simp only [List.map_cons, List.cons.injEq, Prod.mk.injEq] at h ⊢
      exact ⟨by simp [inputSigJson, h.1.1, h.1.2.1, h.1.2.2],
        ih h.2⟩

/-- Claim C4: `Transaction.calculate_hash` is a function of the unsigned
canonical form only — two transactions agreeing on version, lock time,
outputs, and every input's `(prev_tx_id, prev_output_index, sequence)`
triple get the same transaction id, whatever their inputs' signature
scripts (and timestamps) are. -/
theorem C4_calculate_hash_ignores_signature_scripts (C : CryptoModel)
    (t1 t2 : Transaction)
    (hv : t1.version = t2.version) (hl : t1.lock_time = t2.lock_time)
    (ho : t1.outputs = t2.outputs)
    (hi : t1.inputs.map (fun i => (i.prev_tx_id, i.prev_output_index, i.sequence)) =
      t2.inputs.map (fun i => (i.prev_tx_id, i.prev_output_index, i.sequence))) :
    Transaction.calculate_hash C t1 = Transaction.calculate_hash C t2 := by
  have hs : Transaction.serialize_for_signing t1 =
      Transaction.serialize_for_signing t2 := by
    unfold Transaction.serialize_for_signing
    rw [hv, hl, ho, map_inputSigJson_congr hi]
  unfold Transaction.calculate_hash
  rw [hs]

/-- Witness for C4: two concrete transactions differing only in their
signature script (and timestamp) hash identically. -/
theorem C4_witness :
    Transaction.calculate_hash CW txW1 = Transaction.calculate_hash CW txW2 :=
  C4_calculate_hash_ignores_signature_scripts CW txW1 txW2 rfl rfl rfl rfl

/-- Claim C9: `Transaction.sign_input` rejects an out-of-range input index
with a `ValueError` (modelled as `Except.error`; the pure model returns no
modified transaction, so the transaction is untouched), and for an
in-range index it stores `hex(signature) ++ ":" ++ hex(compressed pubkey)`
as that input's signature script, copies the previous locking script onto
the input, and invalidates the cached transaction id. -/
theorem C9_sign_input_spec (C : CryptoModel) (t : Transaction) (i : Nat)
    (key : PrivKeyModel) (ps : String) :
    (t.inputs.length ≤ i →
      Transaction.sign_input C t i key ps =
        Except.error ("Input index " ++ toString i ++ " out of range")) ∧
    (i < t.inputs.length →
      Transaction.sign_input C t i key ps =
        Except.ok
          { t with
            inputs := t.inputs.set i
              { t.inputs.getD i defaultInput with
                signature_script :=
                  bytes_to_hex (key.sign (strDsha C
                    (Transaction.serialize_for_signing t))) ++ ":" ++
                    key.pubHexCompressed,
                pubkey_script := ps },
            cached_tx_id := none }) := by
  constructor
  · intro h
    unfold Transaction.sign_input
    rw [if_pos h]
  · intro h
    unfold Transaction.sign_input
    rw [if_neg (by omega)]

/-- Witness for C9: signing input 5 of a one-input transaction fails with
the out-of-range error. -/
theorem C9_witness :
    Transaction.sign_input CW txW1 5 KW "x" =
      Except.error ("Input index " ++ toString 5 ++ " out of range") :=
  (C9_sign_input_spec CW txW1 5 KW "x").1 (by decide)

/-- Claim C10: `Blockchain.add_transaction` classifies a transaction as
coinbase solely by its first input's `prev_tx_id` being the all-zero
hash — the output-index sentinel and any further inputs are irrelevant —
and every such transaction is appended to the pending queue with result
`true`, bypassing every validation check. -/
theorem C10_add_transaction_coinbase_bypass (C : CryptoModel)
    (bc : Blockchain) (t : Transaction) (h : t.inputs ≠ [])
    (hz : (t.inputs.headD defaultInput).prev_tx_id = zeros64) :
    Blockchain.add_transaction C bc t =
      (true,
        { bc with pending_transactions := bc.pending_transactions ++ [t] }) := by
  unfold Blockchain.add_transaction
  rw [if_pos hz]

/-- Witness for C10: a transaction whose first input has the zero previous
id but a non-reserved output index and a second (unsigned, unknown) input
is still accepted unchecked. -/
theorem C10_witness :
    Blockchain.add_transaction CW bcW0 txW3 =
      (true,
        { bcW0 with
          pending_transactions := bcW0.pending_transactions ++ [txW3] }) :=
  C10_add_transaction_coinbase_bypass CW bcW0 txW3 (by decide) (by decide)

theorem validate_transaction_eq_true_iff (C : CryptoModel) (bc : Blockchain)
    (t : Transaction) :
    Blockchain.validate_transaction C bc t = true ↔
      ((∀ inp ∈ t.inputs, bc.spent_outputs (inputKey inp) = false ∧
          (bc.utxo (inputKey inp)).isSome = true) ∧
        Transaction.verify C bc.utxo t = true ∧
        Transaction.get_output_value t ≤
          Transaction.get_input_value bc.utxo t) := by
  unfold Blockchain.validate_transaction
  simp [List.all_eq_true, Bool.and_eq_true, decide_eq_true_iff,
    Bool.not_eq_true', and_assoc]

/-- Claim C2: for a non-coinbase transaction, `add_transaction` appends it
to the pending queue with result `true` exactly when every input's
outpoint is in the UTXO set and not in the spent set, the signature
verification against the UTXO set succeeds, and total input value is at
least total output value; on any rejection it returns `false` with the
state (in particular the pending queue) unchanged. -/
theorem C2_add_transaction_spec (C : CryptoModel) (bc : Blockchain)
    (t : Transaction) (h : t.inputs ≠ [])
    (hnc : (t.inputs.headD defaultInput).prev_tx_id ≠ zeros64) :
    (Blockchain.add_transaction C bc t =
        (true,
          { bc with
            pending_transactions := bc.pending_transactions ++ [t] }) ↔
      ((∀ inp ∈ t.inputs, bc.spent_outputs (inputKey inp) = false ∧
          (bc.utxo (inputKey inp)).isSome = true) ∧
        Transaction.verify C bc.utxo t = true ∧
        Transaction.get_output_value t ≤
          Transaction.get_input_value bc.utxo t)) ∧
    (Blockchain.validate_transaction C bc t = false →
      Blockchain.add_transaction C bc t = (false, bc)) := by
  have core := validate_transaction_eq_true_iff C bc t
  have hreject : ∀ _ : Blockchain.validate_transaction C bc t = false,
      Blockchain.add_transaction C bc t = (false, bc) := by
    intro hval
    unfold Blockchain.add_transaction
    rw [if_neg hnc, if_pos (by simp [hval])]
  refine ⟨⟨fun hadd => ?_, fun hr => ?_⟩, hreject⟩
  · by_cases hval : Blockchain.validate_transaction C bc t = true
    · exact core.mp hval
    · rw [hreject (Bool.not_eq_true _ ▸ hval)] at hadd
      simp at hadd
  · have hval := core.mpr hr
    unfold Blockchain.add_transaction
    rw [if_neg hnc, if_neg (by simp [hval])]

/-- Witness for C2: a transaction spending an unknown outpoint is rejected
and the ledger is returned unchanged. -/
theorem C2_witness :
    Blockchain.add_transaction CW bcW0 txW4 = (false, bcW0) :=
  (C2_add_transaction_spec CW bcW0 txW4 (by decide) (by decide)).2 (by decide)

/-- Claim C3: `Block.validate_transactions` returns true exactly when the
transaction list is nonempty, the first transaction is a coinbase (zero
previous id on its first input), every later transaction passes `verify`
against the supplied previous outputs, and the stored merkle root equals
a fresh recomputation.  The hypothesis records the domain on which the
Python function returns (a first transaction without inputs would raise
`IndexError` instead). -/
theorem C3_validate_transactions_spec (C : CryptoModel) (b : Block)
    (prev : String → Option TransactionOutput)
    (h : b.transactions = [] ∨ (b.transactions.headD defaultTx).inputs ≠ []) :
    Block.validate_transactions C b prev = true ↔
      (b.transactions ≠ [] ∧
        ((b.transactions.headD defaultTx).inputs.headD
            defaultInput).prev_tx_id = zeros64 ∧
        (∀ tx ∈ b.transactions.tail, Transaction.verify C prev tx = true) ∧
        b.merkle_root = calculate_merkle_root C b.transactions) := by
  unfold Block.validate_transactions
  split_ifs with h1 h2 h3 h4
  · simp only [false_iff]
    intro hc
    exact hc.1 (List.isEmpty_iff.mp h1)
  · simp only [false_iff]
    intro hc
    exact h2 hc.2.1
  · simp only [false_iff]
    intro hc
    have hall := List.all_eq_true.mpr hc.2.2.1
    simp only [hall, Bool.not_true] at h3
    exact Bool.false_ne_true h3
  · simp only [false_iff]
    intro hc
    exact h4 hc.2.2.2
  · simp only [true_iff]
    rw [not_not] at h2 h4
    refine ⟨fun he => h1 (by simp [he]), h2, ?_, h4⟩
    refine List.all_eq_true.mp ?_
    simp only [Bool.not_eq_true] at h3
    revert h3
    cases b.transactions.tail.all fun tx => Transaction.verify C prev tx <;>
      simp

/-- Witness for C3: the coinbase-only witness block validates. -/
theorem C3_witness :
    Block.validate_transactions CW blkW (fun _ => none) = true :=
  (C3_validate_transactions_spec CW blkW (fun _ => none)
      (Or.inr (by decide))).mpr
    ⟨by decide, by decide, by decide, by decide⟩

theorem merkleStep_length_le (C : CryptoModel) :
    ∀ l : List String, 2 * (merkleStep C l).length ≤ l.length + 1 := by
  intro l
  induction l using merkleStep.induct C with
  | case1 => simp [merkleStep]
  | case2 a => simp [merkleStep]
  | case3 a b rest ih =>
    simp only [merkleStep, List.length_cons]
    omega

theorem merkleStep_ne_nil (C : CryptoModel) {l : List String} (h : l ≠ []) :
    merkleStep C l ≠ [] := by
  cases l with
  | nil => exact absurd rfl h
  | cons a t => cases t <;> simp [merkleStep]

theorem merkleLoopGo_spec (C : CryptoModel) :
    ∀ (fuel : Nat) (l : List String), l ≠ [] → l.length ≤ fuel + 1 →
      merkleLoopGo C fuel l = [merkleRootSpec C l] := by
  intro fuel
  induction fuel with
  | zero =>
    intro l hne hlen
    cases l with
    | nil => exact absurd rfl hne
    | cons a t =>
      cases t with
      | nil => simp [merkleLoopGo, merkleRootSpec]
      | cons b r => simp at hlen
  | succ fuel ih =>
    intro l hne hlen
    cases l with
    | nil => exact absurd rfl hne
    | cons a t =>
      cases t with
      | nil => simp [merkleLoopGo, merkleRootSpec]
      | cons b rest =>
        have hstep := merkleStep_length_le C (a :: b :: rest)
        have h1 : ¬((a :: b :: rest).length ≤ 1) := by simp
        have h2 : merkleStep C (a :: b :: rest) ≠ [] :=
          merkleStep_ne_nil C (by simp)
        have h3 : (merkleStep C (a :: b :: rest)).length ≤ fuel + 1 := by
          simp only [List.length_cons] at hstep hlen ⊢
          omega
        rw [merkleLoopGo, if_neg h1, ih _ h2 h3]
        congr 1
        rw [merkleRootSpec]

/-- Claim C5: the loop-based `calculate_merkle_root` agrees with the
reference recursive definition `merkleRootSpec` over the transaction ids;
in particular the empty list yields the 64-character all-zero string, a
singleton yields the transaction id unchanged, and a 3-element list gives
the same root as that list with its third element appended again (the
odd-level duplication rule). -/
theorem C5_merkle_root_spec :
    (∀ (C : CryptoModel) (txs : List Transaction),
      calculate_merkle_root C txs =
        merkleRootSpec C (txs.map (Transaction.tx_id C))) ∧
    (∀ (C : CryptoModel) (t1 t2 t3 : Transaction),
      calculate_merkle_root C [t1, t2, t3] =
        calculate_merkle_root C [t1, t2, t3, t3]) ∧
    (∀ C : CryptoModel, calculate_merkle_root C [] = zeros64) ∧
    (∀ (C : CryptoModel) (t : Transaction),
      calculate_merkle_root C [t] = Transaction.tx_id C t) := by
  have main : ∀ (C : CryptoModel) (txs : List Transaction),
      calculate_merkle_root C txs =
        merkleRootSpec C (txs.map (Transaction.tx_id C)) := by
    intro C txs
    cases txs with
    | nil => simp [calculate_merkle_root, merkleRootSpec]
    | cons t rest =>
      unfold calculate_merkle_root
      rw [if_neg (by simp)]
      rw [show (t :: rest).length = ((t :: rest).map
        (Transaction.tx_id C)).length by simp]
      rw [merkleLoopGo_spec C _ _ (by simp) (by simp)]
      rfl
  refine ⟨main, fun C t1 t2 t3 => ?_, fun C => by
    simp [calculate_merkle_root, merkleRootSpec], fun C t => ?_⟩
  · rw [main, main]
    simp only [List.map_cons, List.map_nil]
    rw [merkleRootSpec, merkleRootSpec]
    simp [merkleStep]
  · rw [main]
    simp [merkleRootSpec]

theorem mineGo_spec (C : CryptoModel) (d : Nat) :
    ∀ (fuel : Nat) (b b' : Block) (n : Nat),
      mineGo C d fuel b = some (b', n) →
      1 ≤ n ∧ n ≤ fuel ∧
      b' = { b with nonce := b.nonce + (n - 1), cached_hash := none } ∧
      startswith (Block.calculate_hash C b') (zerosTarget d) = true ∧
      (∀ k, k < n - 1 →
        startswith (Block.calculate_hash C
          { b with nonce := b.nonce + k, cached_hash := none })
          (zerosTarget d) = false) := by
  intro fuel
  induction fuel with
  | zero =>
    intro b b' n h
    simp [mineGo] at h
  | succ fuel ih =>
    intro b b' n h
    rw [mineGo] at h
    by_cases hs : startswith
        (Block.calculate_hash C { b with cached_hash := none })
        (zerosTarget d) = true
    · simp only [hs, if_true, Option.some.injEq, Prod.mk.injEq] at h
      obtain ⟨hb, hn⟩ := h
      subst hn
      refine ⟨le_refl 1, by omega, ?_, ?_, by omega⟩
      · rw [← hb]
        simp
      · rw [← hb]
        exact hs
    · simp only [if_neg hs] at h
      cases hm : mineGo C d fuel
          ({ b with cached_hash := none, nonce := b.nonce + 1 }) with
      | none =>
        rw [hm] at h
        simp at h
      | some p =>
        obtain ⟨b2, n2⟩ := p
        rw [hm] at h
        simp only [Option.some.injEq, Prod.mk.injEq] at h
        obtain ⟨hb, hn⟩ := h
        obtain ⟨ihn1, ihn2, ihb, ihs, ihk⟩ :=
          ih { b with cached_hash := none, nonce := b.nonce + 1 } b2 n2 hm
        subst hb
        subst hn
        refine ⟨by omega, by omega, ?_, ihs, ?_⟩
        · rw [ihb]
          cases b
          simp only
          congr 1
          omega
        · intro k hk
          cases k with
          | zero =>
            have h0 : b.nonce + 0 = b.nonce := by omega
            rw [h0]
            cases hv : startswith (Block.calculate_hash C
              { b with cached_hash := none }) (zerosTarget d)
            · rfl
            · exact absurd hv hs
          | succ j =>
            have hj : j < n2 - 1 := by omega
            have hres := ihk j hj
            have harith : b.nonce + 1 + j = b.nonce + (j + 1) := by omega
            rw [harith] at hres
            exact hres

/-- Claim C6: when `Block.mine` returns, it has searched by incrementing
the nonce from its starting value, recomputing the full header hash at
every attempt (every nonce before the final one fails the target), it
returns the number of attempts made, and the resulting block's header
hash has at least `difficulty` leading `'0'` characters with
`is_valid_proof` agreeing. -/
theorem C6_mine_spec (C : CryptoModel) (b : Block) (d fuel : Nat)
    (b' : Block) (n : Nat) (h : Block.mine C b d fuel = some (b', n)) :
    1 ≤ n ∧ n ≤ fuel ∧
    b' = { b with nonce := b.nonce + (n - 1), cached_hash := none } ∧
    (Block.hash C b').data.take d = List.replicate d '0' ∧
    Block.is_valid_proof C b' d = true ∧
    (∀ k, k < n - 1 →
      startswith (Block.calculate_hash C
        { b with nonce := b.nonce + k, cached_hash := none })
        (zerosTarget d) = false) := by
  obtain ⟨h1, h2, h3, h4, h5⟩ := mineGo_spec C d fuel b b' n h
  have hcache : Block.hash C b' = Block.calculate_hash C b' := by
    rw [h3]
    rfl
  have hsw : startswith (Block.hash C b') (zerosTarget d) = true := by
    rw [hcache]
    exact h4
  refine ⟨h1, h2, h3, ?_, ?_, h5⟩
  · unfold startswith at hsw
    have ht := of_decide_eq_true hsw
    simpa [zerosTarget] using ht
  · unfold Block.is_valid_proof
    exact hsw

/-- Witness for C6: the witness block mines in one attempt under the dummy
model and satisfies the proof-of-work predicate. -/
theorem C6_witness : Block.is_valid_proof CW blkW 1 = true :=
  (C6_mine_spec CW blkW 1 1 blkW 1 (by decide)).2.2.2.2.1

theorem addUtxosGo_frame (txid : String) (k : String) :
    ∀ (outs : List TransactionOutput)
      (u : String → Option TransactionOutput) (i : Nat),
      (∀ j, j < outs.length → utxoKey txid (i + j) ≠ k) →
      addUtxosGo txid u i outs k = u k := by
  intro outs
  induction outs with
  | nil => intro u i _; rfl
  | cons out rest ih =>
    intro u i hne
    rw [addUtxosGo]
    rw [ih _ (i + 1) (fun j hj => by
      have h1 := hne (j + 1) (by simpa using Nat.succ_lt_succ hj)
      rw [show i + 1 + j = i + (j + 1) by omega]
      exact h1)]
    have h0 := hne 0 (by simp)
    simp only [Nat.add_zero] at h0
    rw [if_neg (fun he => h0 he.symm)]

theorem addUtxosGo_mem (txid : String) (k : String) :
    ∀ (outs : List TransactionOutput)
      (u : String → Option TransactionOutput) (i : Nat),
      (∃ j, j < outs.length ∧ utxoKey txid (i + j) = k) →
      ∃ v, addUtxosGo txid u i outs k = some v := by
  intro outs
  induction outs with
  | nil =>
    intro u i h
    obtain ⟨j, hj, _⟩ := h
    simp at hj
  | cons out rest ih =>
    intro u i h
    by_cases hrest : ∃ j, j < rest.length ∧ utxoKey txid (i + 1 + j) = k
    · rw [addUtxosGo]
      exact ih _ (i + 1) hrest
    · obtain ⟨j, hj, hkey⟩ := h
      cases j with
      | succ j =>
        exfalso
        exact hrest ⟨j, by simpa using hj, by
          rw [show i + 1 + j = i + (j + 1) by omega]
          exact hkey⟩
      | zero =>
        simp only [Nat.add_zero] at hkey
        rw [addUtxosGo]
        rw [addUtxosGo_frame txid k rest _ (i + 1) (fun j hj2 => by
          intro he
          exact hrest ⟨j, hj2, he⟩)]
        rw [if_pos hkey.symm]
        exact ⟨out, rfl⟩

theorem add_utxos_some (C : CryptoModel)
    (u : String → Option TransactionOutput) (t : Transaction) (k : String)
    (h : txProduces C t k) :
    ∃ v, Blockchain.add_utxos C u t k = some v := by
  obtain ⟨j, hj, hk⟩ := h
  exact addUtxosGo_mem _ _ _ _ _ ⟨j, hj, by simpa using hk⟩

theorem addUtxosGo_pres (txid k : String) :
    ∀ (outs : List TransactionOutput)
      (u : String → Option TransactionOutput) (i : Nat),
      (∃ v, u k = some v) → ∃ v, addUtxosGo txid u i outs k = some v := by
  intro outs
  induction outs with
  | nil => intro u i h; exact h
  | cons out rest ih =>
    intro u i h
    rw [addUtxosGo]
    refine ih _ (i + 1) ?_
    by_cases he : k = utxoKey txid i
    · exact ⟨out, by rw [if_pos he]⟩
    · obtain ⟨v, hv⟩ := h
      exact ⟨v, by rw [if_neg he]; exact hv⟩

theorem txsAdd_pres (C : CryptoModel) (k : String) :
    ∀ (txs : List Transaction) (u : String → Option TransactionOutput),
      (∃ v, u k = some v) →
      ∃ v, (txs.foldl (Blockchain.add_utxos C) u) k = some v := by
  intro txs
  induction txs with
  | nil => intro u h; exact h
  | cons t rest ih =>
    intro u h
    rw [List.foldl_cons]
    exact ih _ (addUtxosGo_pres _ k _ _ _ h)

theorem txsAdd_some (C : CryptoModel) (k : String) :
    ∀ (txs : List Transaction) (u : String → Option TransactionOutput),
      (∃ tx ∈ txs, txProduces C tx k) →
      ∃ v, (txs.foldl (Blockchain.add_utxos C) u) k = some v := by
  intro txs
  induction txs with
  | nil =>
    intro u h
    simp at h
  | cons t rest ih =>
    intro u h
    rw [List.foldl_cons]
    by_cases hrest : ∃ tx ∈ rest, txProduces C tx k
    · exact ih _ hrest
    · have hpt : txProduces C t k := by
        rcases h with ⟨tx, hi, he⟩
        rcases List.mem_cons.mp hi with rfl | hmem
        · exact he
        · exact absurd ⟨tx, hmem, he⟩ hrest
      exact txsAdd_pres C k rest _ (add_utxos_some C u t k hpt)

theorem loadFold_spent (C : CryptoModel) :
    ∀ (blocks : List Block) (bc : Blockchain),
      (blocks.foldl (loadBlock C) bc).spent_outputs = bc.spent_outputs := by
  intro blocks
  induction blocks with
  | nil => intro bc; rfl
  | cons b rest ih =>
    intro bc
    rw [List.foldl_cons, ih]
    rfl

theorem loadFold_chain (C : CryptoModel) :
    ∀ (blocks : List Block) (bc : Blockchain),
      (blocks.foldl (loadBlock C) bc).chain = bc.chain ++ blocks := by
  intro blocks
  induction blocks with
  | nil => intro bc; simp
  | cons b rest ih =>
    intro bc
    rw [List.foldl_cons, ih]
    simp [loadBlock]

theorem loadFold_pres (C : CryptoModel) (k : String) :
    ∀ (blocks : List Block) (bc : Blockchain),
      (∃ v, bc.utxo k = some v) →
      ∃ v, (blocks.foldl (loadBlock C) bc).utxo k = some v := by
  intro blocks
  induction blocks with
  | nil => intro bc h; exact h
  | cons b rest ih =>
    intro bc h
    rw [List.foldl_cons]
    exact ih _ (txsAdd_pres C k b.transactions bc.utxo h)

theorem loadFold_some (C : CryptoModel) (k : String) :
    ∀ (blocks : List Block) (bc : Blockchain),
      (∃ b ∈ blocks, ∃ tx ∈ b.transactions, txProduces C tx k) →
      ∃ v, (blocks.foldl (loadBlock C) bc).utxo k = some v := by
  intro blocks
  induction blocks with
  | nil =>
    intro bc h
    simp at h
  | cons b rest ih =>
    intro bc h
    rw [List.foldl_cons]
    by_cases hrest : ∃ b2 ∈ rest, ∃ tx ∈ b2.transactions, txProduces C tx k
    · exact ih _ hrest
    · have hb : ∃ tx ∈ b.transactions, txProduces C tx k := by
        rcases h with ⟨b2, hi, he⟩
        rcases List.mem_cons.mp hi with rfl | hmem
        · exact he
        · exact absurd ⟨b2, hmem, he⟩ hrest
      exact loadFold_pres C k rest _ (txsAdd_some C k b.transactions bc.utxo hb)

/-- Claim C8: after loading a persisted chain, the rebuilt UTXO set has
an entry for every output of every transaction of every block (keyed by
transaction id and output index), the spent set is empty, and nothing is
ever removed: outputs are replayed as additions only, so outputs spent
before saving are present again after loading. -/
theorem C8_load_from_file_spec (C : CryptoModel)
    (difficulty block_reward : Nat) (chainData : List Block)
    (pendingData : List Transaction) :
    (∀ b ∈ chainData, ∀ tx ∈ b.transactions, ∀ i, i < tx.outputs.length →
      ∃ v, (Blockchain.load_from_file C difficulty block_reward chainData
        pendingData).utxo (utxoKey (Transaction.tx_id C tx) i) = some v) ∧
    (∀ k, (Blockchain.load_from_file C difficulty block_reward chainData
      pendingData).spent_outputs k = false) ∧
    (Blockchain.load_from_file C difficulty block_reward chainData
      pendingData).chain = chainData ∧
    (Blockchain.load_from_file C difficulty block_reward chainData
      pendingData).pending_transactions = pendingData := by
  refine ⟨fun b hb tx htx i hi => ?_, fun k => ?_, ?_, rfl⟩
  · exact loadFold_some C _ chainData _ ⟨b, hb, tx, htx, i, hi, rfl⟩
  · show (chainData.foldl (loadBlock C)
      (Blockchain.init difficulty block_reward)).spent_outputs k = false
    rw [loadFold_spent]
    rfl
  · show (chainData.foldl (loadBlock C)
      (Blockchain.init difficulty block_reward)).chain = chainData
    rw [loadFold_chain]
    rfl

/-- Witness for C8: the genesis coinbase output is present after loading
the one-block witness chain. -/
theorem C8_witness :
    ∃ v, (Blockchain.load_from_file CW 1 2 [blkW] []).utxo
      (utxoKey (Transaction.tx_id CW coinbaseW) 0) = some v :=
  (C8_load_from_file_spec CW 1 2 [blkW] []).1 blkW (by decide) coinbaseW
    (by decide) 0 (by decide)

theorem toDigitsB_zero (b : Nat) : ∀ fuel, toDigitsB b fuel 0 = [] := by
  intro fuel
  cases fuel with
  | zero => rfl
  | succ f => simp [toDigitsB]

theorem toDigitsB_lt (b : Nat) (hb : 2 ≤ b) :
    ∀ fuel n, ∀ d ∈ toDigitsB b fuel n, d < b := by
  intro fuel
  induction fuel with
  | zero => intro n d hd; simp [toDigitsB] at hd
  | succ f ih =>
    intro n d hd
    rw [toDigitsB] at hd
    by_cases hn : n = 0
    · rw [if_pos hn] at hd
      simp at hd
    · rw [if_neg hn] at hd
      rcases List.mem_cons.mp hd with rfl | hmem
      · exact Nat.mod_lt n (by omega)
      · exact ih (n / b) d hmem

theorem fromDigitsB_toDigitsB (b : Nat) (hb : 2 ≤ b) :
    ∀ fuel n, n ≤ fuel → fromDigitsB b (toDigitsB b fuel n) = n := by
  intro fuel
  induction fuel with
  | zero =>
    intro n hn
    have : n = 0 := by omega
    subst this
    rfl
  | succ f ih =>
    intro n hn
    rw [toDigitsB]
    by_cases hz : n = 0
    · rw [if_pos hz, hz]
      rfl
    · rw [if_neg hz, fromDigitsB]
      have hdiv : n / b < n := Nat.div_lt_self (Nat.pos_of_ne_zero hz)
        (by omega)
      rw [ih (n / b) (by omega)]
      exact Nat.mod_add_div n b

theorem fromDigitsB_replicate_zero (b : Nat) :
    ∀ z, fromDigitsB b (List.replicate z 0) = 0 := by
  intro z
  induction z with
  | zero => rfl
  | succ z ih => simp [List.replicate, fromDigitsB, ih]

theorem fromDigitsB_append_zeros (b : Nat) :
    ∀ (l : List Nat) (z : Nat),
      fromDigitsB b (l ++ List.replicate z 0) = fromDigitsB b l := by
  intro l
  induction l with
  | nil =>
    intro z
    simpa using fromDigitsB_replicate_zero b z
  | cons d t ih =>
    intro z
    simp [fromDigitsB, ih]

theorem fromDigitsB_pos (b : Nat) (hb : 1 ≤ b) :
    ∀ (L : List Nat) (d : Nat), L.getLast? = some d → d ≠ 0 →
      0 < fromDigitsB b L := by
  intro L
  induction L with
  | nil => intro d hd; simp at hd
  | cons x t ih =>
    intro d hd hdz
    cases t with
    | nil =>
      simp at hd
      subst hd
      simp [fromDigitsB]
      omega
    | cons y r =>
      rw [List.getLast?_cons_cons] at hd
      have := ih d hd hdz
      rw [fromDigitsB]
      have : 0 < b * fromDigitsB b (y :: r) := Nat.mul_pos (by omega) this
      omega

theorem toDigitsB_ne_nil (b : Nat) :
    ∀ fuel n, 0 < n → 0 < fuel → toDigitsB b fuel n ≠ [] := by
  intro fuel n hn hf
  cases fuel with
  | zero => omega
  | succ f =>
    rw [toDigitsB, if_neg (by omega)]
    simp

theorem toDigitsB_fromDigitsB (b : Nat) (hb : 2 ≤ b) :
    ∀ L : List Nat, (∀ d ∈ L, d < b) →
      (∀ d, L.getLast? = some d → d ≠ 0) →
      ∀ fuel, fromDigitsB b L ≤ fuel →
        toDigitsB b fuel (fromDigitsB b L) = L := by
  intro L
  induction L with
  | nil =>
    intro _ _ fuel _
    exact toDigitsB_zero b fuel
  | cons d rest ih =>
    intro hlt hlast fuel hfuel
    cases rest with
    | nil =>
      have hd0 : d ≠ 0 := hlast d (by simp)
      have hdb : d < b := hlt d (by simp)
      have hfd : fromDigitsB b [d] = d := by simp [fromDigitsB]
      rw [hfd] at hfuel ⊢
      cases fuel with
      | zero => omega
      | succ f =>
        rw [toDigitsB, if_neg hd0]
        rw [Nat.mod_eq_of_lt hdb, Nat.div_eq_of_lt hdb, toDigitsB_zero]
    | cons y r =>
      have hm : 0 < fromDigitsB b (y :: r) := by
        have hlast2 : (y :: r).getLast? ≠ none := by simp
        cases hl : (y :: r).getLast? with
        | none => exact absurd hl hlast2
        | some dl =>
          refine fromDigitsB_pos b (by omega) _ dl hl ?_
          refine hlast dl ?_
          rw [List.getLast?_cons_cons]
          exact hl
      have hn : fromDigitsB b (d :: y :: r) =
          d + b * fromDigitsB b (y :: r) := rfl
      have hpos : 0 < fromDigitsB b (d :: y :: r) := by
        rw [hn]
        have : 0 < b * fromDigitsB b (y :: r) := Nat.mul_pos (by omega) hm
        omega
      cases fuel with
      | zero => omega
      | succ f =>
        rw [toDigitsB, if_neg (by omega)]
        have hdb : d < b := hlt d (by simp)
        have hmod : fromDigitsB b (d :: y :: r) % b = d := by
          rw [hn, Nat.add_mul_mod_self_left, Nat.mod_eq_of_lt hdb]
        have hdiv : fromDigitsB b (d :: y :: r) / b =
            fromDigitsB b (y :: r) := by
          rw [hn, Nat.add_mul_div_left _ _ (by omega : 0 < b),
            Nat.div_eq_of_lt hdb, Nat.zero_add]
        rw [hmod, hdiv]
        rw [ih (fun x hx => hlt x (List.mem_cons_of_mem _ hx))
          (fun x hx => hlast x (by rw [List.getLast?_cons_cons]; exact hx))
          f (by
            rw [hn] at hfuel
            have h2 : 2 * fromDigitsB b (y :: r) ≤
                b * fromDigitsB b (y :: r) :=
              Nat.mul_le_mul_right _ hb
            omega)]

theorem toDigitsB_getLast_ne_zero (b : Nat) (hb : 2 ≤ b) :
    ∀ fuel n, 0 < n → n ≤ fuel →
      ∀ d, (toDigitsB b fuel n).getLast? = some d → d ≠ 0 := by
  intro fuel
  induction fuel with
  | zero => intro n hn hf; omega
  | succ f ih =>
    intro n hn hf d hd
    rw [toDigitsB, if_neg (by omega)] at hd
    by_cases hq : n / b = 0
    · rw [hq, toDigitsB_zero] at hd
      simp at hd
      have hmod := Nat.div_add_mod n b
      rw [hq, Nat.mul_zero, Nat.zero_add] at hmod
      omega
    · have hnb : b ≤ n := by
        by_contra hlt
        push_neg at hlt
        exact hq (Nat.div_eq_of_lt hlt)
      have hdiv : n / b < n := Nat.div_lt_self (by omega) (by omega)
      have hqpos : 0 < n / b := Nat.pos_of_ne_zero hq
      have hle : n / b ≤ f := Nat.lt_succ_iff.mp (Nat.lt_of_lt_of_le hdiv hf)
      have hf1 : 0 < f := by omega
      have hnn : toDigitsB b f (n / b) ≠ [] :=
        toDigitsB_ne_nil b f (n / b) hqpos hf1
      have hsome := List.getLast?_eq_getLast (toDigitsB b f (n / b)) hnn
      rw [List.getLast?_cons, hsome] at hd
      simp at hd
      refine ih (n / b) hqpos hle d ?_
      rw [hsome, hd]

theorem b58Value_b58Char : ∀ d, d < 58 → b58Value (b58Char d) = some d := by
  decide

theorem b58Char_ne_one : ∀ d, d < 58 → d ≠ 0 → b58Char d ≠ '1' := by
  decide

theorem b58ValuesGo_append :
    ∀ (l1 l2 : List Char) (v1 v2 : List Nat),
      b58ValuesGo l1 = some v1 → b58ValuesGo l2 = some v2 →
      b58ValuesGo (l1 ++ l2) = some (v1 ++ v2) := by
  intro l1
  induction l1 with
  | nil =>
    intro l2 v1 v2 h1 h2
    simp only [b58ValuesGo, Option.some.injEq] at h1
    subst h1
    simpa using h2
  | cons c t ih =>
    intro l2 v1 v2 h1 h2
    rw [b58ValuesGo] at h1
    cases hv : b58Value c with
    | none => rw [hv] at h1; simp at h1
    | some v =>
      rw [hv] at h1
      cases ht : b58ValuesGo t with
      | none => rw [ht] at h1; simp at h1
      | some vt =>
        rw [ht] at h1
        simp only [Option.some.injEq] at h1
        subst h1
        rw [List.cons_append, b58ValuesGo, hv, ih l2 vt v2 ht h2]
        rfl

theorem b58ValuesGo_replicate_one :
    ∀ z, b58ValuesGo (List.replicate z '1') = some (List.replicate z 0) := by
  intro z
  induction z with
  | zero => rfl
  | succ z ih =>
    rw [List.replicate, b58ValuesGo, ih]
    rfl

theorem b58ValuesGo_map_b58Char :
    ∀ L : List Nat, (∀ d ∈ L, d < 58) →
      b58ValuesGo (L.map b58Char) = some L := by
  intro L
  induction L with
  | nil => intro _; rfl
  | cons d t ih =>
    intro h
    rw [List.map_cons, b58ValuesGo,
      b58Value_b58Char d (h d (List.mem_cons_self _ _)),
      ih (fun x hx => h x (List.mem_cons_of_mem _ hx))]

theorem countLeading_replicate_append {α : Type} [DecidableEq α] (x : α) :
    ∀ (z : Nat) (l : List α),
      countLeading x (List.replicate z x ++ l) = z + countLeading x l := by
  intro z
  induction z with
  | zero => intro l; simp
  | succ z ih =>
    intro l
    rw [List.replicate, List.cons_append, countLeading, if_pos rfl, ih]
    omega

theorem countLeading_head_ne {α : Type} [DecidableEq α] (x : α)
    (l : List α) (h : ∀ c, l.head? = some c → c ≠ x) :
    countLeading x l = 0 := by
  cases l with
  | nil => rfl
  | cons a t =>
    rw [countLeading, if_neg (h a rfl)]

theorem countLeading_split {α : Type} [DecidableEq α] (x : α) :
    ∀ l : List α,
      l = List.replicate (countLeading x l) x ++ l.drop (countLeading x l) ∧
      (∀ c, (l.drop (countLeading x l)).head? = some c → c ≠ x) := by
  intro l
  induction l with
  | nil => exact ⟨rfl, by simp⟩
  | cons a t ih =>
    by_cases ha : a = x
    · subst ha
      rw [countLeading, if_pos rfl]
      refine ⟨?_, ih.2⟩
      rw [List.replicate, List.cons_append, List.drop_succ_cons]
      exact congrArg (a :: ·) ih.1
    · rw [countLeading, if_neg ha]
      exact ⟨rfl, fun c hc => by
        simp only [List.drop_zero, List.head?_cons, Option.some.injEq] at hc
        subst hc
        exact ha⟩

theorem mk_data (l : List Char) : (String.mk l).data = l := rfl

theorem base58_decode_eq (s : String) (vals : List Nat)
    (h : b58ValuesGo s.data = some vals) :
    base58_decode s = some (List.replicate (countLeading '1' s.data) 0 ++
      natToBytes (fromDigitsB 58 vals.reverse)) := by
  unfold base58_decode
  rw [h]

theorem base58_decode_encode (data : List Nat) (h : ∀ x ∈ data, x < 256) :
    base58_decode (base58_encode data) = some data := by
  obtain ⟨hsplit, hhead⟩ := countLeading_split 0 data
  cases hrest : data.drop (countLeading 0 data) with
  | nil =>
    have hdata : data = List.replicate (countLeading 0 data) 0 := by
      conv_lhs => rw [hsplit]
      rw [hrest, List.append_nil]
    have hn : bytesToNat data = 0 := by
      conv_lhs => rw [hdata]
      unfold bytesToNat
      rw [List.reverse_replicate]
      exact fromDigitsB_replicate_zero 256 _
    have hedata : (base58_encode data).data =
        List.replicate (countLeading 0 data) '1' := by
      unfold base58_encode natToB58
      rw [mk_data, hn, toDigitsB_zero]
      simp
    rw [base58_decode_eq _ (List.replicate (countLeading 0 data) 0)
      (by rw [hedata]; exact b58ValuesGo_replicate_one _)]
    rw [hedata]
    have hcl : countLeading '1'
        (List.replicate (countLeading 0 data) '1') = countLeading 0 data := by
      have hc := countLeading_replicate_append '1' (countLeading 0 data)
        ([] : List Char)
      simpa using hc
    rw [hcl, List.reverse_replicate, fromDigitsB_replicate_zero]
    unfold natToBytes
    rw [toDigitsB_zero, List.reverse_nil, List.append_nil]
    exact congrArg some hdata.symm
  | cons r rs =>
    have hr0 : r ≠ 0 := hhead r (by rw [hrest]; rfl)
    have hrev_lt : ∀ d ∈ (data.drop (countLeading 0 data)).reverse,
        d < 256 := by
      intro d hd
      rw [List.mem_reverse] at hd
      exact h d (List.drop_subset _ _ hd)
    have hrev_last : (data.drop (countLeading 0 data)).reverse.getLast? =
        some r := by
      rw [List.getLast?_reverse, hrest]
      rfl
    have hn : bytesToNat data =
        fromDigitsB 256 (data.drop (countLeading 0 data)).reverse := by
      unfold bytesToNat
      conv_lhs => rw [hsplit]
      rw [List.reverse_append, List.reverse_replicate]
      exact fromDigitsB_append_zeros 256 _ _
    have hnpos : 0 < bytesToNat data := by
      rw [hn]
      exact fromDigitsB_pos 256 (by omega) _ r hrev_last hr0
    have hDne : toDigitsB 58 (bytesToNat data) (bytesToNat data) ≠ [] :=
      toDigitsB_ne_nil 58 _ _ hnpos hnpos
    have hD_lt : ∀ d ∈ toDigitsB 58 (bytesToNat data) (bytesToNat data),
        d < 58 := toDigitsB_lt 58 (by omega) _ _
    have hDlast := List.getLast?_eq_getLast _ hDne
    have hdl_ne : (toDigitsB 58 (bytesToNat data) (bytesToNat data)).getLast
        hDne ≠ 0 :=
      toDigitsB_getLast_ne_zero 58 (by omega) _ _ hnpos (le_refl _) _ hDlast
    have hdl_lt : (toDigitsB 58 (bytesToNat data) (bytesToNat data)).getLast
        hDne < 58 :=
      hD_lt _ (List.getLast_mem hDne)
    have hedata : (base58_encode data).data =
        List.replicate (countLeading 0 data) '1' ++
          (toDigitsB 58 (bytesToNat data) (bytesToNat data)).reverse.map
            b58Char := by
      unfold base58_encode natToB58
      rw [mk_data]
    have hvals : b58ValuesGo (base58_encode data).data =
        some (List.replicate (countLeading 0 data) 0 ++
          (toDigitsB 58 (bytesToNat data) (bytesToNat data)).reverse) := by
      rw [hedata]
      exact b58ValuesGo_append _ _ _ _ (b58ValuesGo_replicate_one _)
        (b58ValuesGo_map_b58Char _ (fun d hd =>
          hD_lt d (List.mem_reverse.mp hd)))
    rw [base58_decode_eq _ _ hvals]
    rw [hedata]
    rw [countLeading_replicate_append]
    rw [countLeading_head_ne '1' _ (fun c hc => by
      rw [List.head?_map, List.head?_reverse, hDlast] at hc
      simp only [Option.map_some', Option.some.injEq] at hc
      rw [← hc]
      exact b58Char_ne_one _ hdl_lt hdl_ne)]
    rw [Nat.add_zero]
    rw [List.reverse_append, List.reverse_reverse, List.reverse_replicate]
    rw [fromDigitsB_append_zeros]
    rw [fromDigitsB_toDigitsB 58 (by omega) _ _ (le_refl _)]
    unfold natToBytes
    conv_lhs =>
      rw [hn]
      rw [toDigitsB_fromDigitsB 256 (by omega) _ hrev_lt
        (fun d hd => by
          rw [hrev_last] at hd
          simp only [Option.some.injEq] at hd
          rw [← hd]
          exact hr0)
        (fromDigitsB 256 (List.drop (countLeading 0 data) data).reverse)
        (le_refl _)]
      rw [List.reverse_reverse]
    exact congrArg some hsplit.symm

theorem base58check_decode_eq (C : CryptoModel) (s : String) (d : List Nat)
    (hd : base58_decode s = some d) :
    base58check_decode C s =
      if d.drop (d.length - 4) =
          (C.dsha (d.take 1 ++ (d.drop 1).take (d.length - 5))).take 4
        then Except.ok (d.take 1, (d.drop 1).take (d.length - 5))
        else Except.error "Invalid checksum" := by
  unfold base58check_decode
  rw [hd]

/-- Claim C7: checksum-encoding round trip — for every single version
byte and byte payload, `base58check_decode` of `base58check_encode`
succeeds with exactly the original pair; and decoding any string whose
trailing four checksum bytes do not match the recomputed first four bytes
of the double SHA-256 of `version ++ payload` yields the checksum
`ValueError` rather than a value. -/
theorem C7_base58check_round_trip :
    (∀ (C : CryptoModel) (v : Nat) (p : List Nat), v < 256 →
      (∀ x ∈ p, x < 256) →
      base58check_decode C (base58check_encode C [v] p) =
        Except.ok ([v], p)) ∧
    (∀ (C : CryptoModel) (s : String) (d : List Nat),
      base58_decode s = some d →
      d.drop (d.length - 4) ≠
        (C.dsha (d.take 1 ++ (d.drop 1).take (d.length - 5))).take 4 →
      base58check_decode C s = Except.error "Invalid checksum") := by
  constructor
  · intro C v p hv hp
    have hcs_lt : ∀ x ∈ (C.dsha ([v] ++ p)).take 4, x < 256 := fun x hx =>
      C.dsha_lt _ x (List.mem_of_mem_take hx)
    have hdata_lt : ∀ x ∈ ([v] ++ p) ++ (C.dsha ([v] ++ p)).take 4,
        x < 256 := by
      intro x hx
      rcases List.mem_append.mp hx with hx | hx
      · rcases List.mem_append.mp hx with hx | hx
        · simp only [List.mem_singleton] at hx
          omega
        · exact hp x hx
      · exact hcs_lt x hx
    have hdec := base58_decode_encode _ hdata_lt
    have henc : base58check_encode C [v] p =
        base58_encode (([v] ++ p) ++ (C.dsha ([v] ++ p)).take 4) := rfl
    rw [henc, base58check_decode_eq C _ _ hdec]
    have hcslen : ((C.dsha ([v] ++ p)).take 4).length = 4 := by
      rw [List.length_take, C.dsha_len]
      rfl
    have hlen : (([v] ++ p) ++ (C.dsha ([v] ++ p)).take 4).length =
        p.length + 5 := by
      rw [List.length_append, List.length_append, hcslen]
      simp
      omega
    have htake1 : (([v] ++ p) ++ (C.dsha ([v] ++ p)).take 4).take 1 =
        [v] := by
      rw [List.append_assoc]
      rfl
    have hdrop1 : (([v] ++ p) ++ (C.dsha ([v] ++ p)).take 4).drop 1 =
        p ++ (C.dsha ([v] ++ p)).take 4 := by
      rw [List.append_assoc]
      rfl
    rw [hlen, htake1, hdrop1]
    rw [show p.length + 5 - 5 = p.length by omega]
    rw [show p.length + 5 - 4 = p.length + 1 by omega]
    rw [show p.length + 1 = ([v] ++ p).length by simp [Nat.add_comm]]
    rw [List.drop_left, List.take_left]
    rw [if_pos rfl]
  · intro C s d hdec hne
    rw [base58check_decode_eq C s d hdec, if_neg hne]

/-- Witness for C7: a concrete one-byte payload round-trips under the
dummy model. -/
theorem C7_witness :
    base58check_decode CW (base58check_encode CW [1] [2]) =
      Except.ok ([1], [2]) :=
  C7_base58check_round_trip.1 CW 1 [2] (by decide) (by decide)
